import Mathlib

/-
Verification of the timezone offset resolver (src/python/cudf/cudf/core/tz/tz.py).

The transition table rows and the resolver functions `get_tz_for_zone`,
`time_start_bins`, `tz_localize`, `to_gmt`, `from_gmt`, `tz_convert` are
embedded below.  Timestamps and offsets are modelled as `Int` (seconds);
nullable results are `Option`.  The bulk search and labeling primitives
(`cudf._lib.search.search_sorted`, `cudf._lib.labeling.label_bins`) are not
part of the sources; definitions that stand in for them are modelled from
the specification and say so in their doc comments.
-/

namespace Tz

/-- A row of the time-zone transition table (the columns of `time_zone.csv`
that the resolver reads: `zone_name`, `time_start`, `gmt_offset`; the
remaining columns are never consulted by the resolver). -/
structure TransitionRow where
  zone_name : String
  time_start : Int
  gmt_offset : Int
deriving DecidableEq

/-- The in-memory transition table: a list of rows. -/
abbrev Table := List TransitionRow

/-- `get_tz_for_zone`: the rows of the table whose `zone_name` matches. -/
def get_tz_for_zone (table : Table) (zone : String) : Table :=
  table.filter (fun r => r.zone_name == zone)

/-- Modelled from the spec: the bulk sorted-search primitive
`cudf._lib.search.search_sorted` combined with `.fillna(-1)` and the null
offset on index `-1` is not under `src/`; per the spec, for each instant it
yields the index of the last boundary value that is `≤` the instant, and no
index (null / `-1`) when the instant precedes every boundary. -/
def locate_offset_index : List Int → Int → Option Nat
  | [], _ => none
  | b :: rest, t =>
    match locate_offset_index rest t with
    | some j => some (j + 1)
    | none => if b ≤ t then some 0 else none

/-- The direction of an offset lookup. -/
inductive Direction
  | TO_GMT
  | FROM_GMT
deriving DecidableEq

/-- The boundary space searched by an offset lookup: `to_gmt` searches
`time_start + gmt_offset`, `from_gmt` searches raw `time_start`. -/
def boundary_space (rows : Table) : Direction → List Int
  | Direction.TO_GMT => rows.map (fun r => r.time_start + r.gmt_offset)
  | Direction.FROM_GMT => rows.map (fun r => r.time_start)

/-- The (possibly null) offset applicable to one instant. -/
def offset_for1 (rows : Table) (d : Direction) (t : Int) : Option Int :=
  (locate_offset_index (boundary_space rows d) t).bind
    (fun j => (rows.get? j).map TransitionRow.gmt_offset)

/-- The per-instant offsets for a batch of instants. -/
def offset_for (rows : Table) (instants : List Int) (d : Direction) :
    List (Option Int) :=
  instants.map (offset_for1 rows d)

/-- `time_start_bins`: the resolved indices for a batch of instants, in the
`time_start + gmt_offset` boundary space. -/
def time_start_bins (rows : Table) (data : List Int) : List (Option Nat) :=
  data.map (locate_offset_index (rows.map (fun r => r.time_start + r.gmt_offset)))

/-- `to_gmt` on a single instant: subtract the resolved offset. -/
def to_gmt1 (rows : Table) (t : Int) : Option Int :=
  (offset_for1 rows Direction.TO_GMT t).map (fun o => t - o)

/-- `from_gmt` on a single instant: add the resolved offset. -/
def from_gmt1 (rows : Table) (t : Int) : Option Int :=
  (offset_for1 rows Direction.FROM_GMT t).map (fun o => t + o)

/-- `to_gmt(data, zone)` on a batch. -/
def to_gmt (table : Table) (zone : String) (instants : List Int) :
    List (Option Int) :=
  instants.map (to_gmt1 (get_tz_for_zone table zone))

/-- `from_gmt(data, zone)` on a batch. -/
def from_gmt (table : Table) (zone : String) (instants : List Int) :
    List (Option Int) :=
  instants.map (from_gmt1 (get_tz_for_zone table zone))

/-- `tz_convert(data, from_timezone, to_timezone)`: `from_gmt` after
`to_gmt`, a null intermediate propagating to a null result. -/
def tz_convert (table : Table) (from_zone to_zone : String)
    (instants : List Int) : List (Option Int) :=
  (to_gmt table from_zone instants).map
    (fun g => g.bind (from_gmt1 (get_tz_for_zone table to_zone)))

/-- The adjacent pairs `(rows[i], rows[i+1])` of a zone's transition rows
(`time_start[1:]` paired with both offset columns in `tz_localize`). -/
def adjacentPairs (rows : Table) : List (TransitionRow × TransitionRow) :=
  rows.zip rows.tail

/-- `time_start[i+1] + gmt_offset[i+1]` for an adjacent pair. -/
def new_offset_boundary (p : TransitionRow × TransitionRow) : Int :=
  p.2.time_start + p.2.gmt_offset

/-- `time_start[i+1] + gmt_offset[i]` for an adjacent pair. -/
def old_offset_boundary (p : TransitionRow × TransitionRow) : Int :=
  p.2.time_start + p.1.gmt_offset

/-- The `[ambiguous_begin, ambiguous_end)` interval list of `tz_localize`:
the pairs where the new boundary is below the old one. -/
def ambiguous_intervals (rows : Table) : List (Int × Int) :=
  (adjacentPairs rows).filterMap (fun p =>
    if new_offset_boundary p < old_offset_boundary p then
      some (new_offset_boundary p, old_offset_boundary p)
    else none)

/-- The `[nonexistent_begin, nonexistent_end)` interval list of
`tz_localize`: the pairs where the new boundary is above the old one. -/
def nonexistent_intervals (rows : Table) : List (Int × Int) :=
  (adjacentPairs rows).filterMap (fun p =>
    if old_offset_boundary p < new_offset_boundary p then
      some (old_offset_boundary p, new_offset_boundary p)
    else none)

/-- Modelled from the spec: `cudf._lib.labeling.label_bins` followed by
`.notnull()` is not under `src/`; per the spec it flags membership in any
left-inclusive right-exclusive `[begin, end)` interval of the list. -/
def inAnyInterval (ivs : List (Int × Int)) (t : Int) : Bool :=
  ivs.any (fun iv => decide (iv.1 ≤ t) && decide (t < iv.2))

/-- An instant falls in some ambiguous interval of the zone's rows. -/
def isAmbiguous (rows : Table) (t : Int) : Bool :=
  inAnyInterval (ambiguous_intervals rows) t

/-- An instant falls in some nonexistent interval of the zone's rows. -/
def isNonexistent (rows : Table) (t : Int) : Bool :=
  inAnyInterval (nonexistent_intervals rows) t

/-- An instant is normal: neither ambiguous nor nonexistent. -/
def isNormal (rows : Table) (t : Int) : Bool :=
  !(isAmbiguous rows t || isNonexistent rows t)

/-- `tz_localize(data, zone)`: `none` models the early `return` (Python
`None`) when the zone has no adjacent transition pair; otherwise the
per-instant flags, `ambiguous or nonexistent` read, as the spec does, as
the per-instant boolean union of the two membership masks. -/
def tz_localize (table : Table) (zone : String) (instants : List Int) :
    Option (List Bool) :=
  let rows := get_tz_for_zone table zone
  if (adjacentPairs rows).length = 0 then none
  else some (instants.map (fun t => isAmbiguous rows t || isNonexistent rows t))

/-- A two-transition zone whose clock moves forward (normal witness rows). -/
def tableW : Table := [⟨"W", 0, 0⟩, ⟨"W", 1000, 3600⟩]

/-- A two-transition zone whose clock moves backward at the transition:
`time_start[1] = 1000`, `gmt_offset[0] = 0`, `gmt_offset[1] = -3600`. -/
def tableA : Table := [⟨"A", 0, 0⟩, ⟨"A", 1000, -3600⟩]

/-- A two-transition zone whose clock moves forward at the transition:
`time_start[1] = 1000`, `gmt_offset[0] = -3600`, `gmt_offset[1] = 0`. -/
def tableN : Table := [⟨"N", 0, -3600⟩, ⟨"N", 1000, 0⟩]

/-- A one-transition zone with a negative offset, whose `to_gmt` boundary
`time_start + gmt_offset = -2600` lies before its `time_start = 1000`. -/
def tableE : Table := [⟨"E", 1000, -3600⟩]

/-- A one-transition zone with a positive offset. -/
def tableP : Table := [⟨"P", 1000, 100⟩]

/-- If the search resolves an index, that index holds a boundary `≤ t`. -/
theorem locate_some_le (bs : List Int) (t : Int) (j : Nat)
    (h : locate_offset_index bs t = some j) :
    ∃ v, bs.get? j = some v ∧ v ≤ t := by
  induction bs generalizing j with
  | nil => simp [locate_offset_index] at h
  | cons b rest ih =>
    revert h
    cases hrec : locate_offset_index rest t with
    | some j0 =>
      intro h
      simp only [locate_offset_index, hrec] at h
      obtain rfl : j0 + 1 = j := by simpa using h
      obtain ⟨v, hv, hvle⟩ := ih j0 hrec
      exact ⟨v, by simpa using hv, hvle⟩
    | none =>
      intro h
      simp only [locate_offset_index, hrec] at h
      by_cases hb : b ≤ t
      · simp only [hb, if_pos] at h
        obtain rfl : (0 : Nat) = j := by simpa using h
        exact ⟨b, rfl, hb⟩
      · simp [hb] at h

/-- Every boundary strictly after a resolved index is `> t`. -/
theorem locate_some_max (bs : List Int) (t : Int) (j : Nat)
    (h : locate_offset_index bs t = some j) :
    ∀ m w, j < m → bs.get? m = some w → t < w := by
  induction bs generalizing j with
  | nil => simp [locate_offset_index] at h
  | cons b rest ih =>
    revert h
    cases hrec : locate_offset_index rest t with
    | some j0 =>
      intro h
      simp only [locate_offset_index, hrec] at h
      obtain rfl : j0 + 1 = j := by simpa using h
      intro m w hm hw
      cases m with
      | zero => omega
      | succ m0 =>
        rw [List.get?_cons_succ] at hw
        exact ih j0 hrec m0 w (by omega) hw
    | none =>
      intro h
      simp only [locate_offset_index, hrec] at h
      by_cases hb : b ≤ t
      · simp only [hb, if_pos] at h
        obtain rfl : (0 : Nat) = j := by simpa using h
        intro m w hm hw
        cases m with
        | zero => omega
        | succ m0 =>
          rw [List.get?_cons_succ] at hw
          revert hw
          -- every element of `rest` is `> t` when the recursive search fails
          clear ih hm
          induction rest generalizing m0 with
          | nil => intro hw; simp at hw
          | cons c rest2 ih2 =>
            revert hrec
            cases hrec2 : locate_offset_index rest2 t with
            | some j2 => intro hrec; simp [locate_offset_index, hrec2] at hrec
            | none =>
              intro hrec
              simp only [locate_offset_index, hrec2] at hrec
              by_cases hc : c ≤ t
              · simp [hc] at hrec
              · intro hw
                cases m0 with
                | zero =>
                  rw [List.get?_cons_zero] at hw
                  obtain rfl : c = w := by simpa using hw
                  omega
                | succ m1 =>
                  rw [List.get?_cons_succ] at hw
                  exact ih2 hrec2 m1 hw
      · simp [hb] at h

/-- If every listed boundary is `> t`, the search fails. -/
theorem locate_none_of_gt (bs : List Int) (t : Int)
    (hall : ∀ m w, bs.get? m = some w → t < w) :
    locate_offset_index bs t = none := by
  induction bs with
  | nil => rfl
  | cons b rest ih =>
    have hrec : locate_offset_index rest t = none := by
      apply ih
      intro m w hw
      exact hall (m + 1) w (by simpa using hw)
    have hb : ¬ b ≤ t := by
      have := hall 0 b (by simp)
      omega
    simp [locate_offset_index, hrec, hb]

/-- If the search fails, every listed boundary is `> t`. -/
theorem locate_none_gt (bs : List Int) (t : Int)
    (h : locate_offset_index bs t = none) :
    ∀ m w, bs.get? m = some w → t < w := by
  induction bs with
  | nil => intro m w hw; simp at hw
  | cons b rest ih =>
    revert h
    cases hrec : locate_offset_index rest t with
    | some j0 => intro h; simp [locate_offset_index, hrec] at h
    | none =>
      intro h
      simp only [locate_offset_index, hrec] at h
      by_cases hb : b ≤ t
      · simp [hb] at h
      · intro m w hw
        cases m with
        | zero =>
          rw [List.get?_cons_zero] at hw
          obtain rfl : b = w := by simpa using hw
          omega
        | succ m0 =>
          rw [List.get?_cons_succ] at hw
          exact ih hrec m0 w hw

/-- The search succeeds at `j` as soon as the boundary at `j` is `≤ t` and
all later boundaries are `> t`. -/
theorem locate_some_of (bs : List Int) (t : Int) (j : Nat) (v : Int)
    (hv : bs.get? j = some v) (hle : v ≤ t)
    (hmax : ∀ m w, j < m → bs.get? m = some w → t < w) :
    locate_offset_index bs t = some j := by
  induction bs generalizing j with
  | nil => simp at hv
  | cons b rest ih =>
    cases j with
    | zero =>
      rw [List.get?_cons_zero] at hv
      obtain rfl : b = v := by simpa using hv
      have hrec : locate_offset_index rest t = none := by
        apply locate_none_of_gt
        intro m w hw
        exact hmax (m + 1) w (by omega) (by simpa using hw)
      simp [locate_offset_index, hrec, hle]
    | succ j0 =>
      rw [List.get?_cons_succ] at hv
      have hrec : locate_offset_index rest t = some j0 := by
        apply ih j0 hv
        intro m w hm hw
        exact hmax (m + 1) w (by omega) (by simpa using hw)
      simp [locate_offset_index, hrec]

/-- The adjacent-pair list indexed: entry `p` is `(rows[p], rows[p+1])`. -/
theorem adjacentPairs_get? : ∀ (rows : Table) (p : Nat),
    (adjacentPairs rows).get? p =
      (rows.get? p).bind (fun a => (rows.get? (p + 1)).map (fun b => (a, b)))
  | [], p => by simp [adjacentPairs]
  | [x], p => by
    simp only [adjacentPairs, List.tail_cons, List.zip_nil_right]
    cases p <;> simp
  | x :: y :: rest, 0 => by simp [adjacentPairs]
  | x :: y :: rest, p + 1 => by
    have h := adjacentPairs_get? (y :: rest) p
    simpa [adjacentPairs] using h

/-- A backward-moving adjacent pair contributes its interval to the
ambiguous interval list. -/
theorem mem_ambiguous_intervals (rows : Table) (a b : TransitionRow) (p : Nat)
    (ha : rows.get? p = some a) (hb : rows.get? (p + 1) = some b)
    (hlt : b.time_start + b.gmt_offset < b.time_start + a.gmt_offset) :
    (b.time_start + b.gmt_offset, b.time_start + a.gmt_offset) ∈
      ambiguous_intervals rows := by
  have hmem : (a, b) ∈ adjacentPairs rows := by
    apply List.get?_mem
    rw [adjacentPairs_get?, ha, hb]
    rfl
  apply List.mem_filterMap.mpr
  refine ⟨(a, b), hmem, ?_⟩
  simp [new_offset_boundary, old_offset_boundary, hlt]

/-- A forward-moving adjacent pair contributes its interval to the
nonexistent interval list. -/
theorem mem_nonexistent_intervals (rows : Table) (a b : TransitionRow) (p : Nat)
    (ha : rows.get? p = some a) (hb : rows.get? (p + 1) = some b)
    (hlt : b.time_start + a.gmt_offset < b.time_start + b.gmt_offset) :
    (b.time_start + a.gmt_offset, b.time_start + b.gmt_offset) ∈
      nonexistent_intervals rows := by
  have hmem : (a, b) ∈ adjacentPairs rows := by
    apply List.get?_mem
    rw [adjacentPairs_get?, ha, hb]
    rfl
  apply List.mem_filterMap.mpr
  refine ⟨(a, b), hmem, ?_⟩
  simp [new_offset_boundary, old_offset_boundary, hlt]

/-- Membership of an instant in a listed ambiguous interval makes
`isAmbiguous` true. -/
theorem isAmbiguous_of_mem (rows : Table) (t : Int) (iv : Int × Int)
    (hmem : iv ∈ ambiguous_intervals rows) (h1 : iv.1 ≤ t) (h2 : t < iv.2) :
    isAmbiguous rows t = true := by
  unfold isAmbiguous inAnyInterval
  rw [List.any_eq_true]
  exact ⟨iv, hmem, by simp [h1, h2]⟩

/-- Membership of an instant in a listed nonexistent interval makes
`isNonexistent` true. -/
theorem isNonexistent_of_mem (rows : Table) (t : Int) (iv : Int × Int)
    (hmem : iv ∈ nonexistent_intervals rows) (h1 : iv.1 ≤ t) (h2 : t < iv.2) :
    isNonexistent rows t = true := by
  unfold isNonexistent inAnyInterval
  rw [List.any_eq_true]
  exact ⟨iv, hmem, by simp [h1, h2]⟩

/-- Strictly increasing `time_start` (the sorted-table invariant), read off
at two indexed rows. -/
theorem time_start_lt (rows : Table)
    (hs : List.Chain' (fun x y : Int => x < y)
      (rows.map TransitionRow.time_start))
    (p q : Nat) (a b : TransitionRow) (hpq : p < q)
    (ha : rows.get? p = some a) (hb : rows.get? q = some b) :
    a.time_start < b.time_start := by
  have hpw : List.Pairwise (fun x y : Int => x < y)
      (rows.map TransitionRow.time_start) :=
    List.chain'_iff_pairwise.mp hs
  rw [List.pairwise_map] at hpw
  obtain ⟨hp, hag⟩ := List.get?_eq_some.mp ha
  obtain ⟨hq, hbg⟩ := List.get?_eq_some.mp hb
  have h := List.pairwise_iff_get.mp hpw ⟨p, hp⟩ ⟨q, hq⟩ hpq
  rw [hag, hbg] at h
  exact h

/-- Core round trip: with strictly increasing `time_start` rows, an instant
that is not nonexistent and whose `to_gmt` lookup resolves at index `j`
comes back to itself through `from_gmt`. -/
theorem roundtrip_aux (rows : Table) (i : Int) (j : Nat)
    (hs : List.Chain' (fun x y : Int => x < y)
      (rows.map TransitionRow.time_start))
    (hne : isNonexistent rows i = false)
    (hj : locate_offset_index (boundary_space rows Direction.TO_GMT) i
      = some j) :
    (to_gmt1 rows i).bind (from_gmt1 rows) = some i := by
  have hBdef : boundary_space rows Direction.TO_GMT
      = rows.map (fun r => r.time_start + r.gmt_offset) := rfl
  have hSdef : boundary_space rows Direction.FROM_GMT
      = rows.map (fun r => r.time_start) := rfl
  obtain ⟨vB, hvB, hvBle⟩ := locate_some_le _ i j hj
  rw [hBdef, List.get?_map] at hvB
  cases hrj : rows.get? j with
  | none => rw [hrj] at hvB; cases hvB
  | some rj =>
    rw [hrj] at hvB
    have hvBeq : rj.time_start + rj.gmt_offset = vB := by simpa using hvB
    have hrj2 : rows[j]? = some rj := by
      rw [← List.get?_eq_getElem?]; exact hrj
    have hto : to_gmt1 rows i = some (i - rj.gmt_offset) := by
      simp [to_gmt1, offset_for1, hj, hrj2]
    have hmaxB : ∀ m w, j < m →
        (rows.map (fun r => r.time_start + r.gmt_offset)).get? m = some w →
        i < w := by
      intro m w hm hw
      exact locate_some_max _ i j hj m w hm (by rw [hBdef]; exact hw)
    have hSj : (rows.map (fun r => r.time_start)).get? j
        = some rj.time_start := by
      rw [List.get?_map, hrj]; rfl
    have hSle : rj.time_start ≤ i - rj.gmt_offset := by omega
    -- the boundary one past `j` in the raw `time_start` space stays above
    have hkey : ∀ r1, rows.get? (j + 1) = some r1 →
        i - rj.gmt_offset < r1.time_start := by
      intro r1 hr1
      by_contra hcon
      push_neg at hcon
      have hold : r1.time_start + rj.gmt_offset ≤ i := by omega
      have hnew : i < r1.time_start + r1.gmt_offset := by
        apply hmaxB (j + 1) _ (Nat.lt_succ_self j)
        rw [List.get?_map, hr1]; rfl
      have hltint : r1.time_start + rj.gmt_offset
          < r1.time_start + r1.gmt_offset := by omega
      have hmem := mem_nonexistent_intervals rows rj r1 j hrj hr1 hltint
      have hbad : isNonexistent rows i = true := by
        apply isNonexistent_of_mem rows i _ hmem
        · exact hold
        · exact hnew
      rw [hbad] at hne
      cases hne
    have hSmax : ∀ m w, j < m →
        (rows.map (fun r => r.time_start)).get? m = some w →
        i - rj.gmt_offset < w := by
      intro m w hm hw
      rw [List.get?_map] at hw
      cases hrm : rows.get? m with
      | none => rw [hrm] at hw; cases hw
      | some rm =>
        rw [hrm] at hw
        have hweq : rm.time_start = w := by simpa using hw
        have hmlen : m < rows.length := (List.get?_eq_some.mp hrm).1
        have hj1len : j + 1 < rows.length := by omega
        cases hr1 : rows.get? (j + 1) with
        | none =>
          have := List.get?_eq_none.mp hr1
          omega
        | some r1 =>
          have hg1 := hkey r1 hr1
          rcases Nat.lt_or_ge (j + 1) m with hlt | hge
          · have := time_start_lt rows hs (j + 1) m r1 rm hlt hr1 hrm
            omega
          · have hmeq : m = j + 1 := by omega
            subst hmeq
            rw [hr1] at hrm
            have : r1 = rm := by simpa using hrm
            subst this
            omega
    have hlocS : locate_offset_index (boundary_space rows Direction.FROM_GMT)
        (i - rj.gmt_offset) = some j := by
      rw [hSdef]
      exact locate_some_of _ _ j rj.time_start hSj hSle hSmax
    have hwrap : i - rj.gmt_offset + rj.gmt_offset = i := by ring
    rw [hto]
    simp [from_gmt1, offset_for1, hlocS, hrj2, hwrap]

/-- Mapping a list against itself zipped with its own image. -/
theorem zip_map_map {α β γ : Type} (xs : List α) (f : α → β) (g : α × β → γ) :
    (xs.zip (xs.map f)).map g = xs.map (fun x => g (x, f x)) := by
  induction xs with
  | nil => rfl
  | cons x xs ih => simp [ih]

/-- C1: for every zone with at least one transition row and every instant
that is not classified AMBIGUOUS or NONEXISTENT and whose offset is
resolvable, `from_gmt (to_gmt i zone) zone = i`. -/
theorem to_gmt_from_gmt_roundtrip (table : Table) (zone : String) (i : Int)
    (hs : List.Chain' (fun x y : Int => x < y)
      ((get_tz_for_zone table zone).map TransitionRow.time_start))
    (_hrows : get_tz_for_zone table zone ≠ [])
    (hnormal : isNormal (get_tz_for_zone table zone) i = true)
    (hres : offset_for1 (get_tz_for_zone table zone) Direction.TO_GMT i
      ≠ none) :
    (to_gmt1 (get_tz_for_zone table zone) i).bind
      (from_gmt1 (get_tz_for_zone table zone)) = some i := by
  have hne : isNonexistent (get_tz_for_zone table zone) i = false := by
    cases hx : isNonexistent (get_tz_for_zone table zone) i
    case false => rfl
    case true =>
      unfold isNormal at hnormal
      rw [hx] at hnormal
      simp at hnormal
  cases hloc : locate_offset_index
      (boundary_space (get_tz_for_zone table zone) Direction.TO_GMT) i with
  | none => exact absurd (by simp [offset_for1, hloc]) hres
  | some j => exact roundtrip_aux _ i j hs hne hloc

/-- C1 witness: the round trip evaluated on a concrete zone and instant. -/
theorem to_gmt_from_gmt_roundtrip_witness :
    (to_gmt1 (get_tz_for_zone tableW "W") 500).bind
      (from_gmt1 (get_tz_for_zone tableW "W")) = some 500 :=
  to_gmt_from_gmt_roundtrip tableW "W" 500
    (by
      have h : get_tz_for_zone tableW "W" = tableW := by decide
      rw [h]
      simp [tableW, List.chain'_cons])
    (by decide) (by decide) (by decide)

/-- C2: `to_gmt` subtracts and `from_gmt` adds the per-instant offsets,
which are looked up in the `time_start + gmt_offset` boundary space for
`TO_GMT` and in the raw `time_start` boundary space for `FROM_GMT`; a null
offset propagates to a null result. -/
theorem to_gmt_from_gmt_offset_characterization (table : Table)
    (zone : String) (instants : List Int) :
    to_gmt table zone instants =
      (instants.zip (offset_for (get_tz_for_zone table zone) instants
        Direction.TO_GMT)).map (fun p => p.2.map (fun o => p.1 - o)) ∧
    from_gmt table zone instants =
      (instants.zip (offset_for (get_tz_for_zone table zone) instants
        Direction.FROM_GMT)).map (fun p => p.2.map (fun o => p.1 + o)) ∧
    boundary_space (get_tz_for_zone table zone) Direction.TO_GMT =
      (get_tz_for_zone table zone).map
        (fun r => r.time_start + r.gmt_offset) ∧
    boundary_space (get_tz_for_zone table zone) Direction.FROM_GMT =
      (get_tz_for_zone table zone).map (fun r => r.time_start) := by
  refine ⟨?_, ?_, rfl, rfl⟩
  · rw [offset_for, zip_map_map]; rfl
  · rw [offset_for, zip_map_map]; rfl

/-- C3: the index-location primitive returns the index of the last boundary
`≤` the instant in a sorted boundary sequence, and an instant strictly
before the first boundary resolves to no index. -/
theorem locate_offset_index_spec (bs : List Int) (t : Int)
    (hsorted : List.Chain' (fun x y : Int => x ≤ y) bs) :
    (∀ j, locate_offset_index bs t = some j ↔
      ((∃ v, bs.get? j = some v ∧ v ≤ t) ∧
        ∀ m w, j < m → bs.get? m = some w → t < w)) ∧
    (∀ v0, bs.get? 0 = some v0 → t < v0 →
      locate_offset_index bs t = none) := by
  constructor
  · intro j
    constructor
    · intro h
      exact ⟨locate_some_le bs t j h, locate_some_max bs t j h⟩
    · rintro ⟨⟨v, hv, hvle⟩, hmax⟩
      exact locate_some_of bs t j v hv hvle hmax
  · intro v0 h0 ht
    apply locate_none_of_gt
    intro m w hw
    cases m with
    | zero =>
      rw [h0] at hw
      obtain rfl : v0 = w := by simpa using hw
      exact ht
    | succ m0 =>
      have hpw := List.chain'_iff_pairwise.mp hsorted
      obtain ⟨h0len, h0g⟩ := List.get?_eq_some.mp h0
      obtain ⟨hmlen, hmg⟩ := List.get?_eq_some.mp hw
      have hle := List.pairwise_iff_get.mp hpw ⟨0, h0len⟩ ⟨m0 + 1, hmlen⟩
        (Nat.succ_pos m0)
      rw [h0g, hmg] at hle
      omega

/-- C3 witness: an instant before the first boundary resolves to none. -/
theorem locate_offset_index_spec_witness :
    locate_offset_index [(0 : Int), 1000] (-5) = none :=
  (locate_offset_index_spec [0, 1000] (-5) (by simp [List.chain'_cons])).2 0
    (by decide) (by decide)

/-- C8: for a fixed boundary space, the resolved index is monotone in the
instant. -/
theorem locate_offset_index_monotone (bs : List Int) (a b : Int)
    (hab : a ≤ b) (j : Nat) (hj : locate_offset_index bs a = some j) :
    ∃ k, locate_offset_index bs b = some k ∧ j ≤ k := by
  induction bs generalizing j with
  | nil => simp [locate_offset_index] at hj
  | cons c rest ih =>
    revert hj
    cases hrec : locate_offset_index rest a with
    | some j0 =>
      intro hj
      simp only [locate_offset_index, hrec] at hj
      obtain rfl : j0 + 1 = j := by simpa using hj
      obtain ⟨k0, hk0, hjk⟩ := ih j0 hrec
      exact ⟨k0 + 1, by simp [locate_offset_index, hk0], by omega⟩
    | none =>
      intro hj
      simp only [locate_offset_index, hrec] at hj
      by_cases hc : c ≤ a
      · simp only [hc, if_pos] at hj
        obtain rfl : (0 : Nat) = j := by simpa using hj
        cases hrecb : locate_offset_index rest b with
        | some k0 =>
          exact ⟨k0 + 1, by simp [locate_offset_index, hrecb], by omega⟩
        | none =>
          have hcb : c ≤ b := le_trans hc hab
          exact ⟨0, by simp [locate_offset_index, hrecb, hcb], by omega⟩
      · simp [hc] at hj

/-- C8 witness: monotonicity evaluated at a concrete boundary space. -/
theorem locate_offset_index_monotone_witness :
    ∃ k, locate_offset_index [(0 : Int), 10] 11 = some k ∧ 0 ≤ k :=
  locate_offset_index_monotone [0, 10] 5 11 (by decide) 0 (by decide)

/-- C10: `to_gmt` and `from_gmt` preserve the batch length and compute
entry `k` of the result from entry `k` of the input alone. -/
theorem to_gmt_from_gmt_elementwise (table : Table) (zone : String)
    (instants : List Int) :
    (to_gmt table zone instants).length = instants.length ∧
    (from_gmt table zone instants).length = instants.length ∧
    (∀ k t, instants.get? k = some t →
      (to_gmt table zone instants).get? k
        = some (to_gmt1 (get_tz_for_zone table zone) t)) ∧
    (∀ k t, instants.get? k = some t →
      (from_gmt table zone instants).get? k
        = some (from_gmt1 (get_tz_for_zone table zone) t)) := by
  refine ⟨by simp [to_gmt], by simp [from_gmt], ?_, ?_⟩
  · intro k t ht
    have ht2 : instants[k]? = some t := by
      rw [← List.get?_eq_getElem?]; exact ht
    simp [to_gmt, List.get?_map, ht2]
  · intro k t ht
    have ht2 : instants[k]? = some t := by
      rw [← List.get?_eq_getElem?]; exact ht
    simp [from_gmt, List.get?_map, ht2]

/-- C10 witness: elementwise computation at a concrete batch. -/
theorem to_gmt_from_gmt_elementwise_witness :
    (to_gmt tableW "W" [7]).get? 0
      = some (to_gmt1 (get_tz_for_zone tableW "W") 7) :=
  (to_gmt_from_gmt_elementwise tableW "W" [7]).2.2.1 0 7 rfl

/-- C4: at every adjacent pair, when the new boundary lies below the old
one the half-open interval `[new, old)` is ambiguous, and when above,
`[old, new)` is nonexistent, membership left-inclusive right-exclusive;
exactly those intervals arise in the two concrete zones, where instant `0`
classifies AMBIGUOUS (`time_start[1]=1000`, offsets `0`, `-3600`) and
instant `500` classifies NONEXISTENT (`time_start[1]=1000`, offsets
`-3600`, `0`). -/
theorem transition_interval_classification :
    (∀ (rows : Table) (p : Nat) (a b : TransitionRow),
      rows.get? p = some a → rows.get? (p + 1) = some b →
      (∀ t : Int,
        b.time_start + b.gmt_offset < b.time_start + a.gmt_offset →
        b.time_start + b.gmt_offset ≤ t → t < b.time_start + a.gmt_offset →
        isAmbiguous rows t = true) ∧
      (∀ t : Int,
        b.time_start + a.gmt_offset < b.time_start + b.gmt_offset →
        b.time_start + a.gmt_offset ≤ t → t < b.time_start + b.gmt_offset →
        isNonexistent rows t = true)) ∧
    (∀ t : Int, isAmbiguous (get_tz_for_zone tableA "A") t = true ↔
      (-2600 ≤ t ∧ t < 1000)) ∧
    (∀ t : Int, isNonexistent (get_tz_for_zone tableN "N") t = true ↔
      (-2600 ≤ t ∧ t < 1000)) ∧
    isAmbiguous (get_tz_for_zone tableA "A") 0 = true ∧
    isNonexistent (get_tz_for_zone tableN "N") 500 = true := by
  refine ⟨?_, ?_, ?_, by decide, by decide⟩
  · intro rows p a b ha hb
    constructor
    · intro t hlt h1 h2
      exact isAmbiguous_of_mem rows t _
        (mem_ambiguous_intervals rows a b p ha hb hlt) h1 h2
    · intro t hlt h1 h2
      exact isNonexistent_of_mem rows t _
        (mem_nonexistent_intervals rows a b p ha hb hlt) h1 h2
  · intro t
    have h : ambiguous_intervals (get_tz_for_zone tableA "A")
        = [(-2600, 1000)] := by decide
    simp [isAmbiguous, h, inAnyInterval]
  · intro t
    have h : nonexistent_intervals (get_tz_for_zone tableN "N")
        = [(-2600, 1000)] := by decide
    simp [isNonexistent, h, inAnyInterval]

/-- C4 witness: the adjacent-pair interval rule evaluated on a concrete
zone and instant inside the ambiguous interval. -/
theorem transition_interval_classification_witness :
    isAmbiguous tableA (-100) = true :=
  ((transition_interval_classification.1 tableA 0 ⟨"A", 0, 0⟩
    ⟨"A", 1000, -3600⟩ (by decide) (by decide)).1 (-100) (by decide)
    (by decide) (by decide))

/-- C5 counterexample: an ambiguous instant and a nonexistent instant
receive the same `tz_localize` output (`some [true]`): the returned value
is a single per-instant boolean, never a three-way classification. -/
theorem tz_localize_not_three_way :
    isAmbiguous (get_tz_for_zone tableA "A") 0 = true ∧
    isNonexistent (get_tz_for_zone tableA "A") 0 = false ∧
    isNonexistent (get_tz_for_zone tableN "N") 500 = true ∧
    isAmbiguous (get_tz_for_zone tableN "N") 500 = false ∧
    tz_localize tableA "A" [0] = tz_localize tableN "N" [500] ∧
    tz_localize tableA "A" [0] = some [true] := by decide

/-- C5 amended: for zones with at least two transition rows, `tz_localize`
returns one boolean per instant — true exactly on membership in some
ambiguous or some nonexistent interval (the union of the two masks). -/
theorem tz_localize_union_mask (table : Table) (zone : String)
    (instants : List Int)
    (h2 : 2 ≤ (get_tz_for_zone table zone).length) :
    tz_localize table zone instants =
      some (instants.map (fun t =>
        isAmbiguous (get_tz_for_zone table zone) t ||
        isNonexistent (get_tz_for_zone table zone) t)) ∧
    ∀ t : Int,
      (isAmbiguous (get_tz_for_zone table zone) t ||
        isNonexistent (get_tz_for_zone table zone) t) = true ↔
      ((∃ iv ∈ ambiguous_intervals (get_tz_for_zone table zone),
          iv.1 ≤ t ∧ t < iv.2) ∨
       (∃ iv ∈ nonexistent_intervals (get_tz_for_zone table zone),
          iv.1 ≤ t ∧ t < iv.2)) := by
  constructor
  · have hlen : (adjacentPairs (get_tz_for_zone table zone)).length ≠ 0 := by
      unfold adjacentPairs
      rw [List.length_zip, List.length_tail]
      omega
    simp [tz_localize, hlen]
  · intro t
    simp [isAmbiguous, isNonexistent, inAnyInterval, List.any_eq_true]

/-- C5 amended witness: the union mask evaluated on a concrete zone. -/
theorem tz_localize_union_mask_witness :
    tz_localize tableA "A" [0] =
      some ([(0 : Int)].map (fun t =>
        isAmbiguous (get_tz_for_zone tableA "A") t ||
        isNonexistent (get_tz_for_zone tableA "A") t)) :=
  (tz_localize_union_mask tableA "A" [0] (by decide)).1

/-- C6 counterexample: in zone `tableE` (single transition at
`time_start = 1000` with offset `-3600`), the instant `0` lies strictly
before the earliest `time_start`, yet `to_gmt` resolves it through the
boundary `1000 - 3600 = -2600` and returns `some 3600`, not null. -/
theorem to_gmt_before_first_transition_not_null :
    (0 : Int) < 1000 ∧
    (∀ r ∈ get_tz_for_zone tableE "E", (1000 : Int) ≤ r.time_start) ∧
    offset_for1 (get_tz_for_zone tableE "E") Direction.TO_GMT 0
      = some (-3600) ∧
    to_gmt tableE "E" [0] = [some 3600] ∧
    to_gmt tableE "E" [0] ≠ [none] := by decide

/-- C6 amended: an instant strictly before every `time_start` of the zone
yields a null `FROM_GMT` offset and a null `from_gmt` result, and `to_gmt`
yields null under the analogous condition on its own boundary space
`time_start + gmt_offset`; no case raises, null propagating instead. -/
theorem null_offset_before_first_transition (table : Table) (zone : String)
    (t : Int)
    (hall : ∀ r ∈ get_tz_for_zone table zone, t < r.time_start) :
    offset_for1 (get_tz_for_zone table zone) Direction.FROM_GMT t = none ∧
    from_gmt table zone [t] = [none] ∧
    ((∀ r ∈ get_tz_for_zone table zone, t < r.time_start + r.gmt_offset) →
      (offset_for1 (get_tz_for_zone table zone) Direction.TO_GMT t = none ∧
        to_gmt table zone [t] = [none])) := by
  have hS : locate_offset_index
      (boundary_space (get_tz_for_zone table zone) Direction.FROM_GMT) t
      = none := by
    apply locate_none_of_gt
    intro m w hw
    rw [show boundary_space (get_tz_for_zone table zone) Direction.FROM_GMT
        = (get_tz_for_zone table zone).map (fun r => r.time_start) from rfl,
      List.get?_map] at hw
    cases hr : (get_tz_for_zone table zone).get? m with
    | none => rw [hr] at hw; cases hw
    | some r =>
      rw [hr] at hw
      have hweq : r.time_start = w := by simpa using hw
      have hlt := hall r (List.get?_mem hr)
      omega
  refine ⟨by simp [offset_for1, hS], by simp [from_gmt, from_gmt1, offset_for1, hS], ?_⟩
  intro hball
  have hB : locate_offset_index
      (boundary_space (get_tz_for_zone table zone) Direction.TO_GMT) t
      = none := by
    apply locate_none_of_gt
    intro m w hw
    rw [show boundary_space (get_tz_for_zone table zone) Direction.TO_GMT
        = (get_tz_for_zone table zone).map
          (fun r => r.time_start + r.gmt_offset) from rfl,
      List.get?_map] at hw
    cases hr : (get_tz_for_zone table zone).get? m with
    | none => rw [hr] at hw; cases hw
    | some r =>
      rw [hr] at hw
      have hweq : r.time_start + r.gmt_offset = w := by simpa using hw
      have hlt := hball r (List.get?_mem hr)
      omega
  exact ⟨by simp [offset_for1, hB],
    by simp [to_gmt, to_gmt1, offset_for1, hB]⟩

/-- C6 amended witness: the null lookup at a concrete one-row zone. -/
theorem null_offset_before_first_transition_witness :
    offset_for1 (get_tz_for_zone tableP "P") Direction.FROM_GMT 0 = none :=
  (null_offset_before_first_transition tableP "P" 0 (by decide)).1

/-- C7: a zone with fewer than 2 transition rows (an absent zone name
included) makes `tz_localize` take the explicit early return (`none`
models Python's bare `return`), and every instant is NORMAL: no ambiguous
or nonexistent interval exists to flag it. -/
theorem tz_localize_few_transitions_normal (table : Table) (zone : String)
    (instants : List Int)
    (h : (get_tz_for_zone table zone).length < 2) :
    tz_localize table zone instants = none ∧
    ∀ t : Int, isNormal (get_tz_for_zone table zone) t = true := by
  have hpairs : adjacentPairs (get_tz_for_zone table zone) = [] := by
    apply List.length_eq_zero.mp
    unfold adjacentPairs
    rw [List.length_zip, List.length_tail]
    omega
  constructor
  · simp [tz_localize, hpairs]
  · intro t
    simp [isNormal, isAmbiguous, isNonexistent, ambiguous_intervals,
      nonexistent_intervals, hpairs, inAnyInterval]

/-- C7 witness: an unknown zone name localizes with the early return. -/
theorem tz_localize_few_transitions_normal_witness :
    tz_localize tableW "Nowhere" [5] = none :=
  (tz_localize_few_transitions_normal tableW "Nowhere" [5] (by decide)).1

/-- C9 counterexample: in zone `tableN` (offsets `-3600` then `0` at
`time_start = 1000`) the instant `500` resolves (`TO_GMT` offset
`-3600`) but lies in the nonexistent interval `[-2600, 1000)`, and
same-zone conversion maps it to `4100`, not back to `500`. -/
theorem tz_convert_same_zone_not_id :
    offset_for1 (get_tz_for_zone tableN "N") Direction.TO_GMT 500
      = some (-3600) ∧
    tz_convert tableN "N" "N" [500] = [some 4100] ∧
    tz_convert tableN "N" "N" [500] ≠ [some 500] := by decide

/-- C9 amended: same-zone conversion is the identity for every resolvable
instant that is not classified NONEXISTENT, under the strictly increasing
`time_start` invariant. -/
theorem tz_convert_same_zone_id_of_not_nonexistent (table : Table)
    (zone : String) (i : Int)
    (hs : List.Chain' (fun x y : Int => x < y)
      ((get_tz_for_zone table zone).map TransitionRow.time_start))
    (hne : isNonexistent (get_tz_for_zone table zone) i = false)
    (hres : offset_for1 (get_tz_for_zone table zone) Direction.TO_GMT i
      ≠ none) :
    tz_convert table zone zone [i] = [some i] := by
  cases hloc : locate_offset_index
      (boundary_space (get_tz_for_zone table zone) Direction.TO_GMT) i with
  | none => exact absurd (by simp [offset_for1, hloc]) hres
  | some j =>
    have h := roundtrip_aux (get_tz_for_zone table zone) i j hs hne hloc
    simp [tz_convert, to_gmt, h]

/-- C9 amended witness: same-zone conversion at a concrete normal
instant. -/
theorem tz_convert_same_zone_id_witness :
    tz_convert tableW "W" "W" [500] = [some 500] :=
  tz_convert_same_zone_id_of_not_nonexistent tableW "W" 500
    (by
      have h : get_tz_for_zone tableW "W" = tableW := by decide
      rw [h]
      simp [tableW, List.chain'_cons])
    (by decide) (by decide)

end Tz
